import Mathlib

/-
  Verification development for the sourcify validation service
  (src/services/validation/src/ValidationService.ts).

  The TypeScript code is shallowly embedded: byte buffers and text contents
  are modelled as `String`, external capabilities (the keccak256 digest from
  Web3.utils, JSON.parse, the NESTED_METADATA_REGEX matcher, the AdmZip
  archive decoder and the node-fetch HTTP client) are passed in as explicit
  function parameters, and every JavaScript exception that matters to the
  claims is made explicit with `Except` / `Option`.
-/

namespace SourcifyValidation

/-- Model of the `PathBuffer` class (ValidationService.ts lines 19-27): a raw
input buffer with an optional origin path.  The buffer is modelled as a
`String` (its `toString()` image). -/
structure PathBuffer where
  path : Option String
  buffer : String
deriving DecidableEq

/-- Model of the `PathContent` class (lines 29-37): a text content with its
origin path.  The TypeScript field `path` is declared `string` but is
routinely left `undefined` by the constructor, so it is an `Option` here. -/
structure PathContent where
  path : Option String
  content : String
deriving DecidableEq

/-- A declared source entry of a metadata document, i.e. the value of
`metadata.sources[fileName]` as read by `rearrangeSources` (lines 220-224):
optional inline `content`, the declared `keccak256` hash, and the optional
`urls` array.  `none` models a JavaScript `undefined` field. -/
structure SourceInfo where
  content : Option String
  keccak256 : String
  urls : Option (List String)
deriving DecidableEq

/-- The record stored into `missingSources[fileName]` (line 246). -/
structure MissingInfo where
  keccak256 : String
  urls : Option (List String)
deriving DecidableEq

/-- Model of an HTTP response as consumed by `performFetch` (lines 287-304):
a numeric status and the body text. -/
structure FetchResponse where
  status : Nat
  text : String
deriving DecidableEq

/-- JavaScript truthiness of an optional string: `undefined` and the empty
string are falsy, every other string is truthy.  This is the semantics of
`if (file.content)` and `if (fetched)` in `rearrangeSources`. -/
def truthy : Option String → Bool
  | none => false
  | some s => s ≠ ""

/-- JavaScript `s.startsWith(pre)`, expressed on the character lists. -/
def jsStartsWith (s pre : String) : Bool :=
  pre.data.isPrefixOf s.data

/-- JavaScript `s.slice(n)` for ASCII prefixes: drop the first `n`
characters. -/
def strDrop (s : String) (n : Nat) : String :=
  String.mk (s.data.drop n)

/-- JavaScript `String.prototype.trim()`: remove leading and trailing
whitespace (modelled with `Char.isWhitespace`). -/
def jsTrim (s : String) : String :=
  String.mk (((s.data.dropWhile Char.isWhitespace).reverse.dropWhile Char.isWhitespace).reverse)

/-- First-occurrence replacement on character lists, the semantics of
JavaScript `String.prototype.replace` with a non-empty string pattern. -/
def replaceFirstChars (pat repl : List Char) : List Char → List Char
  | [] => []
  | c :: cs =>
    if pat.isPrefixOf (c :: cs) then repl ++ (c :: cs).drop pat.length
    else c :: replaceFirstChars pat repl cs

/-- JavaScript `s.replace(pat, repl)` (first occurrence only). -/
def replaceFirst (s pat repl : String) : String :=
  String.mk (replaceFirstChars pat.data repl.data s.data)

/-- One alternative of the regular expression `GITHUB_REGEX =
^https?:\/\/github.com` (line 15): after the scheme `scheme` the string
continues with `github`, then one arbitrary character (the unescaped dot of
the regex), then `com`. -/
def githubAfter (scheme : String) (s : String) : Bool :=
  jsStartsWith s scheme &&
  jsStartsWith (strDrop s scheme.length) "github" &&
  jsStartsWith (strDrop s (scheme.length + 7)) "com"

/-- `GITHUB_REGEX.test(s)`: the anchored regex matches with or without the
optional `s` of `https?`. -/
def githubRegexTest (s : String) : Bool :=
  githubAfter "http://" s || githubAfter "https://" s

/-- The `IPFS_PREFIX` constant (line 17). -/
def ipfsPrefix : String := "dweb:/ipfs/"

/-- The fixed IPFS gateway endpoint hard-coded in `processFetching`
(line 279). -/
def ipfsGateway : String := "https://ipfs.infura.io:5001/api/v0/cat?arg="

/-- Model of `performFetch(fileName, url, hash)` (lines 287-304).  The HTTP
client is the `oracle` parameter; `keccak` models `Web3.utils.keccak256`.
Returns the accepted content (`none` on any failure) together with the list
of URLs that were dereferenced (always exactly `[url]`: one request, no
retry).  Logging has no observable effect and is dropped. -/
def performFetch (keccak : String → String) (oracle : String → FetchResponse)
    (url hash : String) : Option String × List String :=
  let res := oracle url
  if res.status = 200 then
    if keccak res.text ≠ hash then (none, [url])
    else (some res.text, [url])
  else (none, [url])

/-- Model of `processFetching(fileName, urls, hash)` (lines 269-285).
`fileName` is trimmed; a GitHub-looking path is rewritten to the
raw-content host and fetched; a path under the `@openzeppelin` scope is
resolved through the first declared URL carrying the `dweb:/ipfs/` prefix,
rewritten to the fixed gateway; every other path yields `null` without any
request.  The second component lists the dereferenced URLs. -/
def processFetching (keccak : String → String) (oracle : String → FetchResponse)
    (fileName : String) (urls : List String) (hash : String) :
    Option String × List String :=
  let fn := jsTrim fileName
  if githubRegexTest fn then
    performFetch keccak oracle (replaceFirst fn "github" "raw.githubusercontent") hash
  else if jsStartsWith fn "@openzeppelin" then
    match urls.find? (fun u => jsStartsWith u ipfsPrefix) with
    | some url => performFetch keccak oracle (ipfsGateway ++ strDrop url ipfsPrefix.length) hash
    | none => (none, [])
  else (none, [])

/-- The URL that `processFetching` would dereference for a given declared
path and URL list, if any.  This is a pure restatement of the URL selection
logic of lines 269-285, used to phrase claims uniformly over both fetch
origins; `processFetching_eq_fetchUrlOf` proves it equivalent. -/
def fetchUrlOf (fileName : String) (urls : List String) : Option String :=
  let fn := jsTrim fileName
  if githubRegexTest fn then
    some (replaceFirst fn "github" "raw.githubusercontent")
  else if jsStartsWith fn "@openzeppelin" then
    match urls.find? (fun u => jsStartsWith u ipfsPrefix) with
    | some url => some (ipfsGateway ++ strDrop url ipfsPrefix.length)
    | none => none
  else none

/-- The content-hash index `hash2file`, a `Map<string, PathContent>`
(line 259).  Modelled as an association list where `set` prepends and
`get` returns the first (i.e. most recent) binding of a key, which is
observationally the `Map` semantics. -/
abbrev Index := List (String × PathContent)

/-- `hash2file.get(hash)`. -/
def indexGet (hash : String) (idx : Index) : Option PathContent :=
  (idx.find? (fun p => p.1 == hash)).map Prod.snd

/-- The loop body of `storeByHash` (lines 259-267), accumulator style:
every file is hashed and inserted, a later file with the same hash
shadowing an earlier one (JavaScript `Map.set`). -/
def storeByHashGo (keccak : String → String) (acc : Index) :
    List PathContent → Index
  | [] => acc
  | f :: rest => storeByHashGo keccak ((keccak f.content, f) :: acc) rest

/-- Model of `storeByHash(files)` (lines 259-267). -/
def storeByHash (keccak : String → String) (files : List PathContent) : Index :=
  storeByHashGo keccak [] files

/-- The classification a single declared source receives in
`rearrangeSources`: entered into `foundSources`, `missingSources` or
`invalidSources`. -/
inductive EntryOutcome where
  | found (pc : PathContent)
  | missing (mi : MissingInfo)
  | invalid (msg : String)
deriving DecidableEq

/-- Result of processing one declared source: its classification, the URLs
dereferenced on its behalf, and the updated content-hash index. -/
structure StepResult where
  out : EntryOutcome
  ds : List String
  idx : Index

/-- The error message of line 227. -/
def hashMismatchMsg : String :=
  "The calculated and the provided hash values don\x27t match."

/-- The fetch stage of the loop body of `rearrangeSources` (lines 235-247),
reached when `file.content` is falsy.  `path0` is the `path` of the current
`file` object (the index hit, or `undefined`).  If `sourceInfo.urls` is
truthy a fetch is attempted; a truthy fetched content is stored into the
index under the declared hash (`hash2file.set(hash, file)` followed by the
aliasing `file.content = fetched`) and the source is found; otherwise the
source is missing. -/
def fetchPhase (keccak : String → String) (oracle : String → FetchResponse)
    (idx : Index) (fileName : String) (info : SourceInfo) (path0 : Option String) :
    StepResult :=
  match info.urls with
  | some urls =>
    let fr := processFetching keccak oracle fileName urls info.keccak256
    match fr.1 with
    | some t =>
      if t ≠ "" then
        ⟨.found ⟨path0, t⟩, fr.2, (info.keccak256, (⟨path0, t⟩ : PathContent)) :: idx⟩
      else ⟨.missing ⟨info.keccak256, info.urls⟩, fr.2, idx⟩
    | none => ⟨.missing ⟨info.keccak256, info.urls⟩, fr.2, idx⟩
  | none => ⟨.missing ⟨info.keccak256, info.urls⟩, [], idx⟩

/-- The index-lookup stage of the loop body (lines 231-247), reached when
the declared inline content is falsy: `file = hash2file.get(hash) || file`.
A truthy hit is found immediately; otherwise the fetch stage runs with the
current `file`'s path. -/
def lookupPhase (keccak : String → String) (oracle : String → FetchResponse)
    (idx : Index) (fileName : String) (info : SourceInfo) : StepResult :=
  match indexGet info.keccak256 idx with
  | some pc =>
    if pc.content ≠ "" then ⟨.found pc, [], idx⟩
    else fetchPhase keccak oracle idx fileName info pc.path
  | none => fetchPhase keccak oracle idx fileName info none

/-- One iteration of the `for (const fileName in metadata.sources)` loop of
`rearrangeSources` (lines 220-248).  Truthy inline content is authoritative:
its hash is compared against the declared hash and the entry is invalid on
mismatch (`continue`) or found on match, with no index lookup and no fetch.
Falsy inline content falls through to the index lookup / fetch stages. -/
def processEntry (keccak : String → String) (oracle : String → FetchResponse)
    (idx : Index) (fileName : String) (info : SourceInfo) : StepResult :=
  match info.content with
  | some c =>
    if c ≠ "" then
      if keccak c ≠ info.keccak256 then ⟨.invalid hashMismatchMsg, [], idx⟩
      else ⟨.found ⟨none, c⟩, [], idx⟩
    else lookupPhase keccak oracle idx fileName info
  | none => lookupPhase keccak oracle idx fileName info

/-- The four result maps of `rearrangeSources`: `foundSources`,
`missingSources`, `invalidSources` (lines 215-217), plus an instrumentation
`trace` of the embedding recording, per declared source in order, the URLs
dereferenced while resolving it (empty when the fetcher was not consulted).
All maps are association lists in declaration order, which is the
JavaScript object insertion order. -/
structure RearrangeResult where
  found : List (String × PathContent)
  missing : List (String × MissingInfo)
  invalid : List (String × String)
  trace : List (String × List String)
deriving DecidableEq

/-- Record one source's classification (the assignment into
`foundSources` / `missingSources` / `invalidSources`, lines 229, 244, 246)
in front of the results of the remaining entries, together with its fetch
trace. -/
def addOutcome (fileName : String) (out : EntryOutcome) (ds : List String)
    (r : RearrangeResult) : RearrangeResult :=
  match out with
  | .found pc => ⟨(fileName, pc) :: r.found, r.missing, r.invalid, (fileName, ds) :: r.trace⟩
  | .missing mi => ⟨r.found, (fileName, mi) :: r.missing, r.invalid, (fileName, ds) :: r.trace⟩
  | .invalid m => ⟨r.found, r.missing, (fileName, m) :: r.invalid, (fileName, ds) :: r.trace⟩

/-- The source-entry loop of `rearrangeSources` (lines 220-248), processing
the declared sources strictly in order and threading the mutable
content-hash index through. -/
def rearrangeGo (keccak : String → String) (oracle : String → FetchResponse)
    (idx : Index) : List (String × SourceInfo) → RearrangeResult
  | [] => ⟨[], [], [], []⟩
  | (fileName, info) :: rest =>
    addOutcome fileName (processEntry keccak oracle idx fileName info).out
      (processEntry keccak oracle idx fileName info).ds
      (rearrangeGo keccak oracle (processEntry keccak oracle idx fileName info).idx rest)

/-- Model of `rearrangeSources(metadata, files)` (lines 214-251): the index
is built over ALL the files handed in (line 218, `storeByHash(files)` —
`checkFiles` passes the complete parsed batch, metadata documents
included), then every declared source entry is classified in order. -/
def rearrangeSources (keccak : String → String) (oracle : String → FetchResponse)
    (entries : List (String × SourceInfo)) (files : List PathContent) :
    RearrangeResult :=
  rearrangeGo keccak oracle (storeByHash keccak files) entries

/-- The index state after processing a prefix of the declared sources,
starting from `idx`. -/
def indexAfter (keccak : String → String) (oracle : String → FetchResponse)
    (idx : Index) : List (String × SourceInfo) → Index
  | [] => idx
  | (fileName, info) :: rest =>
    indexAfter keccak oracle (processEntry keccak oracle idx fileName info).idx rest

/-- First binding of a name in an association list (JavaScript object
property read, unique keys). -/
def lookupRes {α : Type} (l : List (String × α)) (n : String) : Option (String × α) :=
  l.find? (fun p => p.1 == n)

/-- A JSON value as produced by `JSON.parse`.  Numbers are modelled as
integers (the metadata fields relevant to the claims hold no fractional
numbers). -/
inductive Json where
  | null
  | bool (b : Bool)
  | num (n : Int)
  | str (s : String)
  | arr (elems : List Json)
  | obj (fields : List (String × Json))

/-- JavaScript property read `o[k]` on a parsed object: the first field with
that key (`JSON.parse` never yields duplicate keys).  `none` models
`undefined`. -/
def getField (fields : List (String × Json)) (k : String) : Option Json :=
  (fields.find? (fun p => p.1 == k)).map Prod.snd

/-- JavaScript truthiness of a property read: `undefined`, `null`, `false`,
`0` and the empty string are falsy. -/
def jsTruthy : Option Json → Bool
  | none => false
  | some Json.null => false
  | some (Json.bool b) => b
  | some (Json.num n) => n ≠ 0
  | some (Json.str s) => s ≠ ""
  | some (Json.arr _) => true
  | some (Json.obj _) => true

mutual

/-- JavaScript `ToString` of a parsed JSON value, as invoked by the second
`JSON.parse(obj)` of `extractMetadataFromString` (line 314) when `obj` is
not a string: objects stringify to a fixed tag, arrays join their elements
with commas. -/
def jsToString : Json → String
  | Json.null => "null"
  | Json.bool true => "true"
  | Json.bool false => "false"
  | Json.num n => toString n
  | Json.str s => s
  | Json.arr xs => jsToStringList xs
  | Json.obj _ => "[object Object]"

/-- `Array.prototype.join(",")` with `null` elements rendered empty. -/
def jsToStringList : List Json → String
  | [] => ""
  | [Json.null] => ""
  | [j] => jsToString j
  | Json.null :: rest => "," ++ jsToStringList rest
  | j :: rest => jsToString j ++ "," ++ jsToStringList rest

end

/-- Model of `isMetadata(obj)` (lines 330-333): the parsed value declares
`language === "Solidity"` and a truthy `compiler`.  Property access on
`null` throws a TypeError in JavaScript, modelled by `none`; on every other
non-object value it yields `undefined`, making the predicate false. -/
def isMetadata : Json → Option Bool
  | Json.null => none
  | Json.obj fields =>
    some ((match getField fields "language" with
           | some (Json.str s) => s == "Solidity"
           | _ => false)
          && jsTruthy (getField fields "compiler"))
  | _ => some false

/-- Model of `extractMetadataFromString(file)` (lines 306-321).  `jsonParse`
is the external `JSON.parse`, returning `none` where it would throw.  A
direct parse recognized as metadata is returned; otherwise the result is
re-parsed after JavaScript string coercion (the double-encoding fallback);
any exception inside the `try` block yields `null`. -/
def extractMetadataFromString (jsonParse : String → Option Json) (file : String) :
    Option Json :=
  match jsonParse file with
  | none => none
  | some obj =>
    match isMetadata obj with
    | none => none
    | some true => some obj
    | some false =>
      match jsonParse (jsToString obj) with
      | none => none
      | some obj2 =>
        match isMetadata obj2 with
        | some true => some obj2
        | _ => none

/-- The computation `Object.keys(metadata.settings.compilationTarget).length`
of `findMetadataFiles` (line 189), performed on every recognized metadata
document.  `none` models the JavaScript TypeError thrown when
`metadata.settings` is not an object (property access on `undefined`/`null`,
or `Object.keys` applied to the `undefined`/`null` read of
`compilationTarget`).  `Object.keys` of a string yields its index keys, of
a number or boolean the empty list. -/
def compilationTargetKeysLen (m : Json) : Option Nat :=
  match m with
  | Json.obj fields =>
    match getField fields "settings" with
    | some (Json.obj sfields) =>
      match getField sfields "compilationTarget" with
      | some (Json.obj cfields) => some cfields.length
      | some (Json.arr xs) => some xs.length
      | some (Json.str s) => some s.length
      | some (Json.num _) => some 0
      | some (Json.bool _) => some 0
      | some Json.null => none
      | none => none
    | _ => none
  | _ => none

/-- The fatal conditions of the pipeline: the documented "no metadata found"
error (lines 198-202) and the undocumented TypeError escaping
`findMetadataFiles` (line 189). -/
inductive VError where
  | noMetadata
  | typeError
deriving DecidableEq

/-- The scanning loop of `findMetadataFiles` (lines 176-196): each file is
put through `extractMetadataFromString`; on failure the raw text is matched
against `NESTED_METADATA_REGEX` (the external regex engine is the
`nestedMatch` parameter, returning the matched substring) and the match is
extracted in turn.  Every recognized document has its compilation-target
key count computed — a TypeError there aborts the whole scan. -/
def findMetadataGo (jsonParse : String → Option Json)
    (nestedMatch : String → Option String) :
    List PathContent → Except VError (List Json)
  | [] => Except.ok []
  | f :: rest =>
    let m0 := extractMetadataFromString jsonParse f.content
    let m := match m0 with
      | some md => some md
      | none =>
        match nestedMatch f.content with
        | some s => extractMetadataFromString jsonParse s
        | none => none
    match m with
    | some md =>
      match compilationTargetKeysLen md with
      | none => Except.error VError.typeError
      | some _ =>
        match findMetadataGo jsonParse nestedMatch rest with
        | Except.error e => Except.error e
        | Except.ok l => Except.ok (md :: l)
    | none => findMetadataGo jsonParse nestedMatch rest

/-- Model of `findMetadataFiles(files)` (lines 176-205): scan all files and
throw the "no metadata found" error when the collection stays empty. -/
def findMetadataFiles (jsonParse : String → Option Json)
    (nestedMatch : String → Option String) (files : List PathContent) :
    Except VError (List Json) :=
  match findMetadataGo jsonParse nestedMatch files with
  | Except.error e => Except.error e
  | Except.ok [] => Except.error VError.noMetadata
  | Except.ok l => Except.ok l

/-- Model of `findInputFiles(files)` together with `unzip` (lines 126-169).
`zipQ` is the external archive decoder: `none` when `new AdmZip(buffer)`
throws (not an archive), otherwise the flat list of contained file buffers.
The JavaScript `for...of` loop iterates an array that `unzip` keeps
appending to, so expanded entries — nested archives included — are
themselves visited later: the loop is a work queue.  Every expanded entry
inherits the enclosing archive's logical path (`zippedFile.path`,
line 165).  `fuel` bounds the number of loop iterations; the original
loop runs without such a bound (and diverges on a zip quine). -/
def findInputFiles (zipQ : String → Option (List String)) :
    Nat → List PathBuffer → List PathBuffer
  | _, [] => []
  | 0, _ :: _ => []
  | fuel + 1, f :: rest =>
    match zipQ f.buffer with
    | some entries =>
      findInputFiles zipQ fuel (rest ++ entries.map (fun b => ⟨f.path, b⟩))
    | none => f :: findInputFiles zipQ fuel rest

/-- The sources mapping of a parsed metadata document, as enumerated by
`for (const fileName in metadata.sources)` (line 220) with the property
reads of lines 221-224.  Non-string `content`/`keccak256` fields and
non-string URL entries do not occur in compiler-emitted metadata and are
modelled as absent / empty. -/
def sourceInfoOfJson : Json → SourceInfo
  | Json.obj fields =>
    { content := match getField fields "content" with
        | some (Json.str s) => some s
        | _ => none
      keccak256 := match getField fields "keccak256" with
        | some (Json.str s) => s
        | _ => ""
      urls := match getField fields "urls" with
        | some (Json.arr xs) =>
          some (xs.filterMap (fun j => match j with
            | Json.str s => some s
            | _ => none))
        | _ => none }
  | _ => { content := none, keccak256 := "", urls := none }

/-- The declared source entries of a metadata document in declaration
order; `for...in` over a non-object enumerates nothing. -/
def sourcesOf : Json → List (String × SourceInfo)
  | Json.obj fields =>
    match getField fields "sources" with
    | some (Json.obj srcs) => srcs.map (fun p => (p.1, sourceInfoOfJson p.2))
    | _ => []
  | _ => []

/-- Model of the `CheckedContract` aggregate as constructed by `checkFiles`
(line 105): one metadata document with its per-source classification. -/
structure CheckedContract where
  metadata : Json
  foundSources : List (String × PathContent)
  missingSources : List (String × MissingInfo)
  invalidSources : List (String × String)

/-- Model of `checkFiles(files)` (lines 95-118): expand archives, decode the
buffers, scan for metadata documents (fatal when none is recognized), then
reconcile every metadata document against the full parsed batch.  The
diagnostic logging of lines 107-115 has no observable effect and is
dropped.  An error yields no partial results. -/
def checkFiles (zipQ : String → Option (List String))
    (jsonParse : String → Option Json) (nestedMatch : String → Option String)
    (keccak : String → String) (oracle : String → FetchResponse)
    (fuel : Nat) (files : List PathBuffer) :
    Except VError (List CheckedContract) :=
  let inputFiles := findInputFiles zipQ fuel files
  let parsedFiles := inputFiles.map (fun pb => (⟨pb.path, pb.buffer⟩ : PathContent))
  match findMetadataFiles jsonParse nestedMatch parsedFiles with
  | Except.error e => Except.error e
  | Except.ok metadataFiles =>
    Except.ok (metadataFiles.map (fun m =>
      let r := rearrangeSources keccak oracle (sourcesOf m) parsedFiles
      ⟨m, r.found, r.missing, r.invalid⟩))

/-! Concrete instantiations of the external capabilities, used to evaluate
the model on explicit inputs.  Each stands for a plausible behaviour of the
real dependency on the specific inputs involved. -/

/-- A concrete collision-free stand-in for `Web3.utils.keccak256`: digests
are tagged copies of the input.  Injective, as the real digest is assumed
to be on the inputs at hand (the collision-resistance assumption the
metadata format relies on). -/
def exKeccak : String → String := fun s => "K:" ++ s

/-- A concrete HTTP client: one URL answers 200 with body `srcbody`,
everything else is 404. -/
def exOracle : String → FetchResponse := fun u =>
  if u = "https://raw.githubusercontent.com/a/b/s.sol" then ⟨200, "srcbody"⟩
  else ⟨404, ""⟩

/-- An HTTP client that fails every request. -/
def oracleNone : String → FetchResponse := fun _ => ⟨404, ""⟩

/-- An archive decoder that recognizes nothing. -/
def zipNone : String → Option (List String) := fun _ => none

/-- A regex matcher for `NESTED_METADATA_REGEX` that finds no match in any
of the inputs at hand (none of them embeds an escaped metadata document). -/
def nestedNone : String → Option String := fun _ => none

/-- A Solidity source text (not JSON, so `JSON.parse` throws on it). -/
def c5Src : String := "contract Storage \x7b uint256 number; \x7d"

/-- A metadata document recognized by `isMetadata` but carrying no
`settings` key. -/
def c5Meta : String :=
  "\x7b\"language\":\"Solidity\",\"compiler\":\x7b\"version\":\"0.8.0\"\x7d\x7d"

/-- The `JSON.parse` image of `c5Meta`. -/
def c5MetaJson : Json :=
  Json.obj [("language", Json.str "Solidity"),
            ("compiler", Json.obj [("version", Json.str "0.8.0")])]

/-- Another metadata document without `settings`, for the scanner-level
evaluation. -/
def c7Meta : String :=
  "\x7b\"language\":\"Solidity\",\"compiler\":\x7b\"version\":\"0.7.6\"\x7d\x7d"

/-- The `JSON.parse` image of `c7Meta`. -/
def c7MetaJson : Json :=
  Json.obj [("language", Json.str "Solidity"),
            ("compiler", Json.obj [("version", Json.str "0.7.6")])]

/-- A well-formed metadata document declaring the single source `a.sol`
with hash `0xhash2` and no inline content or URLs. -/
def m1Blob : String :=
  "\x7b\"language\":\"Solidity\",\"compiler\":\x7b\"version\":\"0.6.2\"\x7d,\"settings\":\x7b\"compilationTarget\":\x7b\"a.sol\":\"A\"\x7d\x7d,\"sources\":\x7b\"a.sol\":\x7b\"keccak256\":\"0xhash2\"\x7d\x7d\x7d"

/-- The `JSON.parse` image of `m1Blob`. -/
def m1Json : Json :=
  Json.obj [("language", Json.str "Solidity"),
            ("compiler", Json.obj [("version", Json.str "0.6.2")]),
            ("settings", Json.obj [("compilationTarget", Json.obj [("a.sol", Json.str "A")])]),
            ("sources", Json.obj [("a.sol", Json.obj [("keccak256", Json.str "0xhash2")])])]

/-- A second well-formed metadata document, declaring the single source
`b.sol` with hash `0xbbbb`. -/
def m2Blob : String :=
  "\x7b\"language\":\"Solidity\",\"compiler\":\x7b\"version\":\"0.6.2\"\x7d,\"settings\":\x7b\"compilationTarget\":\x7b\"b.sol\":\"B\"\x7d\x7d,\"sources\":\x7b\"b.sol\":\x7b\"keccak256\":\"0xbbbb\"\x7d\x7d\x7d"

/-- The `JSON.parse` image of `m2Blob`. -/
def m2Json : Json :=
  Json.obj [("language", Json.str "Solidity"),
            ("compiler", Json.obj [("version", Json.str "0.6.2")]),
            ("settings", Json.obj [("compilationTarget", Json.obj [("b.sol", Json.str "B")])]),
            ("sources", Json.obj [("b.sol", Json.obj [("keccak256", Json.str "0xbbbb")])])]

/-- A concrete `JSON.parse`: the four JSON texts above parse to their
values, everything else (in particular plain Solidity sources) throws. -/
def exParse : String → Option Json := fun s =>
  if s = c5Meta then some c5MetaJson
  else if s = c7Meta then some c7MetaJson
  else if s = m1Blob then some m1Json
  else if s = m2Blob then some m2Json
  else none

/-- A concrete digest for the two-metadata batch: `m1Blob` hashes to
`0xhash1`, `m2Blob` to `0xhash2` (the hash `m1Blob` declares for its
source `a.sol`), everything else to `0xother`. -/
def keccakC6 : String → String := fun s =>
  if s = m1Blob then "0xhash1"
  else if s = m2Blob then "0xhash2"
  else "0xother"

/-- A concrete archive decoder: the blob `ZIPA` is an archive containing
the blob `ZIPB` (itself an archive containing `inner source`) and the
plain file `plain one`; nothing else is an archive. -/
def exZip : String → Option (List String) := fun s =>
  if s = "ZIPA" then some ["ZIPB", "plain one"]
  else if s = "ZIPB" then some ["inner source"]
  else none

/-! Basic lemmas about association-list lookup and the content-hash
index. -/

theorem lookupRes_cons_self {α : Type} (n : String) (x : α) (l : List (String × α)) :
    lookupRes ((n, x) :: l) n = some (n, x) := by
  unfold lookupRes
  exact List.find?_cons_of_pos _ (by simp)

theorem lookupRes_cons_ne {α : Type} {m n : String} (x : α) (l : List (String × α))
    (h : m ≠ n) : lookupRes ((m, x) :: l) n = lookupRes l n := by
  unfold lookupRes
  exact List.find?_cons_of_neg _ (by simp [h])

theorem lookupRes_eq_none {α : Type} {l : List (String × α)} {n : String}
    (h : ∀ p ∈ l, p.1 ≠ n) : lookupRes l n = none := by
  unfold lookupRes
  rw [List.find?_eq_none]
  intro x hx
  simp [h x hx]

theorem indexGet_mem {hsh : String} {idx : Index} {pc : PathContent}
    (h : indexGet hsh idx = some pc) : (hsh, pc) ∈ idx := by
  unfold indexGet at h
  cases hfind : idx.find? (fun p => p.1 == hsh) with
  | none => rw [hfind] at h; cases h
  | some q =>
    rw [hfind] at h
    have h1 := List.find?_some hfind
    have h2 := List.mem_of_find?_eq_some hfind
    obtain ⟨q1, q2⟩ := q
    simp at h h1
    rw [h1, h] at h2
    exact h2

theorem indexGet_isSome_of_mem {hsh : String} {idx : Index} {pc : PathContent}
    (h : (hsh, pc) ∈ idx) : ∃ pc2, indexGet hsh idx = some pc2 := by
  have hs : (idx.find? (fun p => p.1 == hsh)).isSome := by
    rw [List.find?_isSome]
    exact ⟨(hsh, pc), h, by simp⟩
  cases hfind : idx.find? (fun p => p.1 == hsh) with
  | none => rw [hfind] at hs; cases hs
  | some q => exact ⟨q.2, by unfold indexGet; rw [hfind]; rfl⟩

theorem indexGet_eq_none {hsh : String} {idx : Index}
    (h : ∀ p ∈ idx, p.1 ≠ hsh) : indexGet hsh idx = none := by
  unfold indexGet
  rw [List.find?_eq_none.mpr]
  · rfl
  · intro x hx
    simp [h x hx]

/-! Lemmas about `storeByHash`: which entries the freshly built index
holds. -/

theorem storeByHashGo_mem_acc {keccak : String → String} {acc : Index}
    {files : List PathContent} {p : String × PathContent} (h : p ∈ acc) :
    p ∈ storeByHashGo keccak acc files := by
  induction files generalizing acc with
  | nil => exact h
  | cons f rest ih => exact ih (List.mem_cons_of_mem _ h)

theorem storeByHash_mem_of {keccak : String → String} {files : List PathContent}
    {f : PathContent} (h : f ∈ files) :
    (keccak f.content, f) ∈ storeByHash keccak files := by
  unfold storeByHash
  have main : ∀ (files : List PathContent) (acc : Index), f ∈ files →
      (keccak f.content, f) ∈ storeByHashGo keccak acc files := by
    intro files
    induction files with
    | nil => intro acc hmem; cases hmem
    | cons g rest ih =>
      intro acc hmem
      rcases List.mem_cons.mp hmem with hg | hrest
      · subst hg
        show (keccak f.content, f) ∈ storeByHashGo keccak ((keccak f.content, f) :: acc) rest
        exact storeByHashGo_mem_acc (List.mem_cons_self _ _)
      · exact ih _ hrest
  exact main files [] h

theorem storeByHash_mem_elim {keccak : String → String} {files : List PathContent}
    {p : String × PathContent} (h : p ∈ storeByHash keccak files) :
    ∃ f ∈ files, p = (keccak f.content, f) := by
  unfold storeByHash at h
  have main : ∀ (files : List PathContent) (acc : Index),
      p ∈ storeByHashGo keccak acc files →
      p ∈ acc ∨ ∃ f ∈ files, p = (keccak f.content, f) := by
    intro files
    induction files with
    | nil => intro acc hp; exact Or.inl hp
    | cons f rest ih =>
      intro acc hp
      have hp2 : p ∈ storeByHashGo keccak ((keccak f.content, f) :: acc) rest := hp
      rcases ih _ hp2 with hacc | ⟨g, hg, hpg⟩
      · rcases List.mem_cons.mp hacc with he | hacc2
        · exact Or.inr ⟨f, List.mem_cons_self _ _, he⟩
        · exact Or.inl hacc2
      · exact Or.inr ⟨g, List.mem_cons_of_mem _ hg, hpg⟩
  rcases main files [] h with hacc | hex
  · cases hacc
  · exact hex

/-! Lemmas about the fetcher model. -/

theorem performFetch_snd (keccak : String → String) (oracle : String → FetchResponse)
    (url hsh : String) : (performFetch keccak oracle url hsh).2 = [url] := by
  simp only [performFetch]
  split
  · split <;> rfl
  · rfl

theorem performFetch_some {keccak : String → String} {oracle : String → FetchResponse}
    {url hsh t : String} (h : (performFetch keccak oracle url hsh).1 = some t) :
    keccak t = hsh ∧ t = (oracle url).text := by
  simp only [performFetch] at h
  split at h
  · split at h
    · cases h
    · next hne =>
      simp only at h
      cases h
      exact ⟨not_ne_iff.mp hne, rfl⟩
  · cases h

theorem processFetching_eq (keccak : String → String) (oracle : String → FetchResponse)
    (n : String) (urls : List String) (hsh : String) :
    processFetching keccak oracle n urls hsh =
      (match fetchUrlOf n urls with
       | some u => performFetch keccak oracle u hsh
       | none => (none, [])) := by
  cases hg : githubRegexTest (jsTrim n) with
  | true => simp [processFetching, fetchUrlOf, hg]
  | false =>
    cases ho : jsStartsWith (jsTrim n) "@openzeppelin" with
    | true =>
      cases hf : urls.find? (fun u => jsStartsWith u ipfsPrefix) with
      | some u => simp [processFetching, fetchUrlOf, hg, ho, hf]
      | none => simp [processFetching, fetchUrlOf, hg, ho, hf]
    | false => simp [processFetching, fetchUrlOf, hg, ho]

theorem processFetching_some {keccak : String → String} {oracle : String → FetchResponse}
    {n : String} {urls : List String} {hsh t : String}
    (h : (processFetching keccak oracle n urls hsh).1 = some t) : keccak t = hsh := by
  rw [processFetching_eq] at h
  cases hu : fetchUrlOf n urls with
  | none => rw [hu] at h; cases h
  | some u =>
    rw [hu] at h
    exact (performFetch_some h).1

theorem processFetching_of_url {keccak : String → String} {oracle : String → FetchResponse}
    {n : String} {urls : List String} {u : String} (hsh : String)
    (hu : fetchUrlOf n urls = some u) :
    processFetching keccak oracle n urls hsh = performFetch keccak oracle u hsh := by
  rw [processFetching_eq, hu]

/-! Characterizations of `processEntry`, one per control-flow branch of the
loop body of `rearrangeSources`. -/

theorem processEntry_inline_invalid {keccak : String → String}
    {oracle : String → FetchResponse} {idx : Index} {n : String} {i : SourceInfo}
    {c : String} (hc : i.content = some c) (hce : c ≠ "")
    (hm : keccak c ≠ i.keccak256) :
    processEntry keccak oracle idx n i = ⟨.invalid hashMismatchMsg, [], idx⟩ := by
  simp [processEntry, hc, hce, hm]

theorem processEntry_inline_valid {keccak : String → String}
    {oracle : String → FetchResponse} {idx : Index} {n : String} {i : SourceInfo}
    {c : String} (hc : i.content = some c) (hce : c ≠ "")
    (hm : keccak c = i.keccak256) :
    processEntry keccak oracle idx n i = ⟨.found ⟨none, c⟩, [], idx⟩ := by
  simp [processEntry, hc, hce, hm]

theorem processEntry_no_inline {keccak : String → String}
    {oracle : String → FetchResponse} {idx : Index} {n : String} {i : SourceInfo}
    (hc : i.content = none) :
    processEntry keccak oracle idx n i = lookupPhase keccak oracle idx n i := by
  simp [processEntry, hc]

theorem lookupPhase_hit {keccak : String → String} {oracle : String → FetchResponse}
    {idx : Index} {n : String} {i : SourceInfo} {pc : PathContent}
    (hg : indexGet i.keccak256 idx = some pc) (hne : pc.content ≠ "") :
    lookupPhase keccak oracle idx n i = ⟨.found pc, [], idx⟩ := by
  simp [lookupPhase, hg, hne]

theorem lookupPhase_miss {keccak : String → String} {oracle : String → FetchResponse}
    {idx : Index} {n : String} {i : SourceInfo}
    (hg : indexGet i.keccak256 idx = none) :
    lookupPhase keccak oracle idx n i = fetchPhase keccak oracle idx n i none := by
  simp [lookupPhase, hg]

theorem fetchPhase_no_urls {keccak : String → String} {oracle : String → FetchResponse}
    {idx : Index} {n : String} {i : SourceInfo} {p0 : Option String}
    (hu : i.urls = none) :
    fetchPhase keccak oracle idx n i p0 = ⟨.missing ⟨i.keccak256, none⟩, [], idx⟩ := by
  simp [fetchPhase, hu]

theorem fetchPhase_fail {keccak : String → String} {oracle : String → FetchResponse}
    {idx : Index} {n : String} {i : SourceInfo} {p0 : Option String}
    {us : List String} (hu : i.urls = some us)
    (hf : (processFetching keccak oracle n us i.keccak256).1 = none) :
    fetchPhase keccak oracle idx n i p0 =
      ⟨.missing ⟨i.keccak256, some us⟩,
       (processFetching keccak oracle n us i.keccak256).2, idx⟩ := by
  simp [fetchPhase, hu, hf]

theorem fetchPhase_success {keccak : String → String} {oracle : String → FetchResponse}
    {idx : Index} {n : String} {i : SourceInfo} {p0 : Option String}
    {us : List String} {t : String} (hu : i.urls = some us)
    (hf : (processFetching keccak oracle n us i.keccak256).1 = some t) (hne : t ≠ "") :
    fetchPhase keccak oracle idx n i p0 =
      ⟨.found ⟨p0, t⟩, (processFetching keccak oracle n us i.keccak256).2,
       (i.keccak256, (⟨p0, t⟩ : PathContent)) :: idx⟩ := by
  simp [fetchPhase, hu, hf, hne]

/-- The index after one entry is either unchanged or extended in front with
one binding of the entry's declared hash to a non-empty content that hashes
to it (the fetched-and-verified content of lines 237-240). -/
theorem processEntry_idx_shape (keccak : String → String)
    (oracle : String → FetchResponse) (idx : Index) (n : String) (i : SourceInfo) :
    (processEntry keccak oracle idx n i).idx = idx ∨
    ∃ t p0, t ≠ "" ∧ keccak t = i.keccak256 ∧
      (processEntry keccak oracle idx n i).idx =
        (i.keccak256, (⟨p0, t⟩ : PathContent)) :: idx := by
  have hfetch : ∀ p0 : Option String,
      (fetchPhase keccak oracle idx n i p0).idx = idx ∨
      ∃ t p0', t ≠ "" ∧ keccak t = i.keccak256 ∧
        (fetchPhase keccak oracle idx n i p0).idx =
          (i.keccak256, (⟨p0', t⟩ : PathContent)) :: idx := by
    intro p0
    cases hu : i.urls with
    | none => rw [fetchPhase_no_urls hu]; exact Or.inl rfl
    | some us =>
      cases hf : (processFetching keccak oracle n us i.keccak256).1 with
      | none => rw [fetchPhase_fail hu hf]; exact Or.inl rfl
      | some t =>
        by_cases hne : t = ""
        · subst hne
          simp [fetchPhase, hu, hf]
        · rw [fetchPhase_success hu hf hne]
          exact Or.inr ⟨t, p0, hne, processFetching_some hf, rfl⟩
  have hlookup :
      (lookupPhase keccak oracle idx n i).idx = idx ∨
      ∃ t p0', t ≠ "" ∧ keccak t = i.keccak256 ∧
        (lookupPhase keccak oracle idx n i).idx =
          (i.keccak256, (⟨p0', t⟩ : PathContent)) :: idx := by
    cases hg : indexGet i.keccak256 idx with
    | none => rw [lookupPhase_miss hg]; exact hfetch none
    | some pc =>
      by_cases hne : pc.content = ""
      · have : lookupPhase keccak oracle idx n i = fetchPhase keccak oracle idx n i pc.path := by
          simp [lookupPhase, hg, hne]
        rw [this]; exact hfetch pc.path
      · rw [lookupPhase_hit hg hne]; exact Or.inl rfl
  cases hc : i.content with
  | none => rw [processEntry_no_inline hc]; exact hlookup
  | some c =>
    by_cases hce : c = ""
    · subst hce
      have : processEntry keccak oracle idx n i = lookupPhase keccak oracle idx n i := by
        simp [processEntry, hc]
      rw [this]; exact hlookup
    · by_cases hm : keccak c = i.keccak256
      · rw [processEntry_inline_valid hc hce hm]; exact Or.inl rfl
      · rw [processEntry_inline_invalid hc hce hm]; exact Or.inl rfl

theorem processEntry_idx_mem {keccak : String → String}
    {oracle : String → FetchResponse} {idx : Index} {n : String} {i : SourceInfo}
    {p : String × PathContent} (hp : p ∈ idx) :
    p ∈ (processEntry keccak oracle idx n i).idx := by
  rcases processEntry_idx_shape keccak oracle idx n i with heq | ⟨t, p0, _, _, heq⟩
  · rw [heq]; exact hp
  · rw [heq]; exact List.mem_cons_of_mem _ hp

theorem processEntry_idx_elim {keccak : String → String}
    {oracle : String → FetchResponse} {idx : Index} {n : String} {i : SourceInfo}
    {p : String × PathContent} (hp : p ∈ (processEntry keccak oracle idx n i).idx) :
    p ∈ idx ∨ (p.1 = i.keccak256 ∧ p.2.content ≠ "" ∧ keccak p.2.content = p.1) := by
  rcases processEntry_idx_shape keccak oracle idx n i with heq | ⟨t, p0, hne, hk, heq⟩
  · rw [heq] at hp; exact Or.inl hp
  · rw [heq] at hp
    rcases List.mem_cons.mp hp with he | hmem
    · subst he
      exact Or.inr ⟨rfl, hne, by simpa using hk⟩
    · exact Or.inl hmem

/-! Lemmas about `indexAfter`, the index state reached after a prefix of
the declared sources. -/

theorem indexAfter_mem {keccak : String → String} {oracle : String → FetchResponse}
    {idx : Index} {l : List (String × SourceInfo)} {p : String × PathContent}
    (hp : p ∈ idx) : p ∈ indexAfter keccak oracle idx l := by
  induction l generalizing idx with
  | nil => exact hp
  | cons e rest ih =>
    obtain ⟨n, i⟩ := e
    exact ih (processEntry_idx_mem hp)

theorem indexAfter_elim {keccak : String → String} {oracle : String → FetchResponse}
    {idx : Index} {l : List (String × SourceInfo)} {p : String × PathContent}
    (hp : p ∈ indexAfter keccak oracle idx l) :
    p ∈ idx ∨ (p.2.content ≠ "" ∧ keccak p.2.content = p.1 ∧
               ∃ e ∈ l, p.1 = e.2.keccak256) := by
  induction l generalizing idx with
  | nil => exact Or.inl hp
  | cons e rest ih =>
    obtain ⟨n, i⟩ := e
    have hp2 : p ∈ indexAfter keccak oracle (processEntry keccak oracle idx n i).idx rest := hp
    rcases ih hp2 with hstep | ⟨hne, hk, e', he', hkey⟩
    · rcases processEntry_idx_elim hstep with hidx | ⟨hkey, hne, hk⟩
      · exact Or.inl hidx
      · exact Or.inr ⟨hne, hk, (n, i), List.mem_cons_self _ _, hkey⟩
    · exact Or.inr ⟨hne, hk, e', List.mem_cons_of_mem _ he', hkey⟩

theorem indexAfter_append (keccak : String → String) (oracle : String → FetchResponse)
    (idx : Index) (l₁ l₂ : List (String × SourceInfo)) :
    indexAfter keccak oracle idx (l₁ ++ l₂) =
      indexAfter keccak oracle (indexAfter keccak oracle idx l₁) l₂ := by
  induction l₁ generalizing idx with
  | nil => rfl
  | cons e rest ih =>
    obtain ⟨n, i⟩ := e
    exact ih _

/-! Lemmas about the reconciliation loop `rearrangeGo`: every classified
name stems from the processed entries, the trace lists every entry in
order, and the classification of one entry can be read off from
`processEntry` at the index state reached before it. -/

theorem rearrangeGo_fst_mem (keccak : String → String) (oracle : String → FetchResponse)
    (idx : Index) (l : List (String × SourceInfo)) :
    (∀ p ∈ (rearrangeGo keccak oracle idx l).found, p.1 ∈ l.map Prod.fst) ∧
    (∀ p ∈ (rearrangeGo keccak oracle idx l).missing, p.1 ∈ l.map Prod.fst) ∧
    (∀ p ∈ (rearrangeGo keccak oracle idx l).invalid, p.1 ∈ l.map Prod.fst) := by
  induction l generalizing idx with
  | nil => simp [rearrangeGo]
  | cons e rest ih =>
    obtain ⟨n, i⟩ := e
    have ih2 := ih (processEntry keccak oracle idx n i).idx
    cases hout : (processEntry keccak oracle idx n i).out with
    | found pc =>
      refine ⟨?_, ?_, ?_⟩ <;> intro p hp <;>
        simp only [rearrangeGo, hout, addOutcome] at hp
      · rcases List.mem_cons.mp hp with he | hp2
        · subst he; simp
        · simp only [List.map_cons, List.mem_cons]
          exact Or.inr (ih2.1 p hp2)
      · simp only [List.map_cons, List.mem_cons]
        exact Or.inr (ih2.2.1 p hp)
      · simp only [List.map_cons, List.mem_cons]
        exact Or.inr (ih2.2.2 p hp)
    | missing mi =>
      refine ⟨?_, ?_, ?_⟩ <;> intro p hp <;>
        simp only [rearrangeGo, hout, addOutcome] at hp
      · simp only [List.map_cons, List.mem_cons]
        exact Or.inr (ih2.1 p hp)
      · rcases List.mem_cons.mp hp with he | hp2
        · subst he; simp
        · simp only [List.map_cons, List.mem_cons]
          exact Or.inr (ih2.2.1 p hp2)
      · simp only [List.map_cons, List.mem_cons]
        exact Or.inr (ih2.2.2 p hp)
    | invalid m =>
      refine ⟨?_, ?_, ?_⟩ <;> intro p hp <;>
        simp only [rearrangeGo, hout, addOutcome] at hp
      · simp only [List.map_cons, List.mem_cons]
        exact Or.inr (ih2.1 p hp)
      · simp only [List.map_cons, List.mem_cons]
        exact Or.inr (ih2.2.1 p hp)
      · rcases List.mem_cons.mp hp with he | hp2
        · subst he; simp
        · simp only [List.map_cons, List.mem_cons]
          exact Or.inr (ih2.2.2 p hp2)

theorem rearrangeGo_trace_fst (keccak : String → String) (oracle : String → FetchResponse)
    (idx : Index) (l : List (String × SourceInfo)) :
    (rearrangeGo keccak oracle idx l).trace.map Prod.fst = l.map Prod.fst := by
  induction l generalizing idx with
  | nil => rfl
  | cons e rest ih =>
    obtain ⟨n, i⟩ := e
    cases hout : (processEntry keccak oracle idx n i).out <;>
      simp [rearrangeGo, hout, addOutcome, ih]

theorem lookupRes_addOutcome_ne {m n : String} (hm : m ≠ n) (out : EntryOutcome)
    (ds : List String) (r : RearrangeResult) :
    lookupRes (addOutcome m out ds r).found n = lookupRes r.found n ∧
    lookupRes (addOutcome m out ds r).missing n = lookupRes r.missing n ∧
    lookupRes (addOutcome m out ds r).invalid n = lookupRes r.invalid n ∧
    lookupRes (addOutcome m out ds r).trace n = lookupRes r.trace n := by
  cases out <;> exact ⟨by simp [addOutcome, lookupRes_cons_ne _ _ hm],
                       by simp [addOutcome, lookupRes_cons_ne _ _ hm],
                       by simp [addOutcome, lookupRes_cons_ne _ _ hm],
                       by simp [addOutcome, lookupRes_cons_ne _ _ hm]⟩

theorem lookupRes_addOutcome_self {n : String} (out : EntryOutcome)
    (ds : List String) (r : RearrangeResult)
    (hf : lookupRes r.found n = none) (hmi : lookupRes r.missing n = none)
    (hin : lookupRes r.invalid n = none) :
    (lookupRes (addOutcome n out ds r).found n =
      (match out with | .found pc => some (n, pc) | _ => none)) ∧
    (lookupRes (addOutcome n out ds r).missing n =
      (match out with | .missing mi => some (n, mi) | _ => none)) ∧
    (lookupRes (addOutcome n out ds r).invalid n =
      (match out with | .invalid m => some (n, m) | _ => none)) ∧
    lookupRes (addOutcome n out ds r).trace n = some (n, ds) := by
  cases out <;>
    exact ⟨by simp [addOutcome, lookupRes_cons_self, hf],
           by simp [addOutcome, lookupRes_cons_self, hmi],
           by simp [addOutcome, lookupRes_cons_self, hin],
           by simp [addOutcome, lookupRes_cons_self]⟩

/-- The classification of the declared source at a given position of the
entries list: exactly the outcome `processEntry` yields at the index state
reached after the earlier entries, provided the name is declared only
there. -/
theorem rearrangeGo_split (keccak : String → String) (oracle : String → FetchResponse)
    (idx : Index) {pre post : List (String × SourceInfo)} {n : String} {i : SourceInfo}
    (hpre : n ∉ pre.map Prod.fst) (hpost : n ∉ post.map Prod.fst) :
    (lookupRes (rearrangeGo keccak oracle idx (pre ++ (n, i) :: post)).found n =
      (match (processEntry keccak oracle (indexAfter keccak oracle idx pre) n i).out with
       | .found pc => some (n, pc) | _ => none)) ∧
    (lookupRes (rearrangeGo keccak oracle idx (pre ++ (n, i) :: post)).missing n =
      (match (processEntry keccak oracle (indexAfter keccak oracle idx pre) n i).out with
       | .missing mi => some (n, mi) | _ => none)) ∧
    (lookupRes (rearrangeGo keccak oracle idx (pre ++ (n, i) :: post)).invalid n =
      (match (processEntry keccak oracle (indexAfter keccak oracle idx pre) n i).out with
       | .invalid m => some (n, m) | _ => none)) ∧
    lookupRes (rearrangeGo keccak oracle idx (pre ++ (n, i) :: post)).trace n =
      some (n, (processEntry keccak oracle (indexAfter keccak oracle idx pre) n i).ds) := by
  induction pre generalizing idx with
  | nil =>
    simp only [List.nil_append]
    have hst := rearrangeGo_fst_mem keccak oracle
      (processEntry keccak oracle idx n i).idx post
    have hf : lookupRes (rearrangeGo keccak oracle
        (processEntry keccak oracle idx n i).idx post).found n = none :=
      lookupRes_eq_none (fun p hp hc => hpost (hc ▸ hst.1 p hp))
    have hmi : lookupRes (rearrangeGo keccak oracle
        (processEntry keccak oracle idx n i).idx post).missing n = none :=
      lookupRes_eq_none (fun p hp hc => hpost (hc ▸ hst.2.1 p hp))
    have hin : lookupRes (rearrangeGo keccak oracle
        (processEntry keccak oracle idx n i).idx post).invalid n = none :=
      lookupRes_eq_none (fun p hp hc => hpost (hc ▸ hst.2.2 p hp))
    have hmain := lookupRes_addOutcome_self
      (processEntry keccak oracle idx n i).out
      (processEntry keccak oracle idx n i).ds
      (rearrangeGo keccak oracle (processEntry keccak oracle idx n i).idx post)
      hf hmi hin
    exact hmain
  | cons e pre' ih =>
    obtain ⟨m, j⟩ := e
    have hm : m ≠ n := by
      intro hc
      exact hpre (by simp [hc])
    have hpre' : n ∉ pre'.map Prod.fst := fun hc => hpre (by simp [hc])
    have hne := lookupRes_addOutcome_ne hm
      (processEntry keccak oracle idx m j).out
      (processEntry keccak oracle idx m j).ds
      (rearrangeGo keccak oracle (processEntry keccak oracle idx m j).idx
        (pre' ++ (n, i) :: post))
    have ih2 := ih (processEntry keccak oracle idx m j).idx hpre'
    simp only [List.cons_append, rearrangeGo, indexAfter, List.append_eq]
    rw [hne.1, hne.2.1, hne.2.2.1, hne.2.2.2]
    exact ih2

/-- Splitting an entries list with duplicate-free names at a member. -/
theorem nodup_split_of_mem {l : List (String × SourceInfo)} {n : String} {i : SourceInfo}
    (hmem : (n, i) ∈ l) (hnd : (l.map Prod.fst).Nodup) :
    ∃ pre post, l = pre ++ (n, i) :: post ∧
      n ∉ pre.map Prod.fst ∧ n ∉ post.map Prod.fst := by
  obtain ⟨pre, post, rfl⟩ := List.append_of_mem hmem
  rw [List.map_append, List.map_cons, List.nodup_append] at hnd
  obtain ⟨h1, h2, hdisj⟩ := hnd
  rw [List.nodup_cons] at h2
  exact ⟨pre, post, rfl, fun hc => hdisj hc (List.mem_cons_self _ _), h2.1⟩

/-! String lemmas: trimming a declared path keeps its `@openzeppelin`
prefix, and such a path can never match the GitHub regex. -/

theorem isPrefixOf_iff : ∀ (l₁ l₂ : List Char), l₁.isPrefixOf l₂ = true ↔ l₁ <+: l₂
  | [], l₂ => by simp [List.isPrefixOf]
  | _ :: _, [] => by simp [List.isPrefixOf]
  | a :: as, b :: bs => by
    simp only [List.isPrefixOf, Bool.and_eq_true, beq_iff_eq, List.cons_prefix_cons]
    rw [isPrefixOf_iff as bs]

theorem jsStartsWith_iff (s pre : String) :
    jsStartsWith s pre = true ↔ pre.data <+: s.data := by
  unfold jsStartsWith
  exact isPrefixOf_iff _ _

theorem dropWhile_append_eq {α : Type} (p : α → Bool) (l₁ l₂ : List α) :
    (l₁ ++ l₂).dropWhile p =
      if l₁.all p then l₂.dropWhile p else l₁.dropWhile p ++ l₂ := by
  induction l₁ with
  | nil => simp
  | cons x xs ih =>
    by_cases hx : p x
    · simp [List.dropWhile_cons, hx, ih]
    · simp [List.dropWhile_cons, hx]

theorem jsTrim_keeps_oz {s : String} (h : jsStartsWith s "@openzeppelin" = true) :
    jsStartsWith (jsTrim s) "@openzeppelin" = true := by
  rw [jsStartsWith_iff] at h ⊢
  obtain ⟨r, hr⟩ := h
  show "@openzeppelin".data <+:
    (((jsTrim s).data))
  have hdata : (jsTrim s).data =
      ((s.data.dropWhile Char.isWhitespace).reverse.dropWhile Char.isWhitespace).reverse := rfl
  rw [hdata, ← hr]
  have h1 : (("@openzeppelin".data ++ r).dropWhile Char.isWhitespace) =
      "@openzeppelin".data ++ r := by
    rw [dropWhile_append_eq]
    have hall : ("@openzeppelin".data.all Char.isWhitespace) = false := by decide
    have hP : ("@openzeppelin".data.dropWhile Char.isWhitespace) = "@openzeppelin".data := by
      decide
    simp [hall, hP]
  rw [h1, List.reverse_append, dropWhile_append_eq]
  by_cases hall : r.reverse.all Char.isWhitespace
  · rw [if_pos hall]
    have hPr : ("@openzeppelin".data.reverse.dropWhile Char.isWhitespace) =
        "@openzeppelin".data.reverse := by decide
    rw [hPr, List.reverse_reverse]
  · rw [if_neg hall, List.reverse_append, List.reverse_reverse]
    exact ⟨_, rfl⟩

theorem githubRegexTest_false_of_oz {t : String}
    (h : jsStartsWith t "@openzeppelin" = true) : githubRegexTest t = false := by
  obtain ⟨r, hr⟩ := (jsStartsWith_iff _ _).mp h
  have ht : t.data = '@' :: ("openzeppelin".data ++ r) := by
    rw [← hr]
    rfl
  simp only [githubRegexTest, githubAfter, jsStartsWith, ht]
  rfl

/-! Index-state facts used by the claims: when no batch file and no
processed entry carries a hash, the index misses it; when a batch file
carries it and the digest is injective, the lookup returns that file's
exact content. -/

theorem indexGet_after_none {keccak : String → String} {oracle : String → FetchResponse}
    {files : List PathContent} {pre : List (String × SourceInfo)} {H : String}
    (hfiles : ∀ f ∈ files, keccak f.content ≠ H)
    (hpre : ∀ e ∈ pre, e.2.keccak256 ≠ H) :
    indexGet H (indexAfter keccak oracle (storeByHash keccak files) pre) = none := by
  apply indexGet_eq_none
  intro p hp hc
  rcases indexAfter_elim hp with hbase | ⟨_, _, e, he, hkey⟩
  · obtain ⟨f, hf, rfl⟩ := storeByHash_mem_elim hbase
    exact hfiles f hf hc
  · exact hpre e he (by rw [← hkey, hc])

theorem indexGet_after_inj {keccak : String → String} {oracle : String → FetchResponse}
    {files : List PathContent} {pre : List (String × SourceInfo)}
    {f : PathContent} {H : String}
    (hinj : Function.Injective keccak) (hf : f ∈ files) (hH : keccak f.content = H) :
    ∃ pc, indexGet H (indexAfter keccak oracle (storeByHash keccak files) pre) = some pc ∧
      pc.content = f.content := by
  have hbase : (H, f) ∈ storeByHash keccak files := by
    rw [← hH]
    exact storeByHash_mem_of hf
  have hmem : (H, f) ∈ indexAfter keccak oracle (storeByHash keccak files) pre :=
    indexAfter_mem hbase
  obtain ⟨pc, hpc⟩ := indexGet_isSome_of_mem hmem
  refine ⟨pc, hpc, ?_⟩
  have hmem2 := indexGet_mem hpc
  rcases indexAfter_elim hmem2 with hb | ⟨_, hk, _, _, _⟩
  · obtain ⟨g, _, heq⟩ := storeByHash_mem_elim hb
    have h1 : H = keccak g.content := congrArg Prod.fst heq
    have h2 : pc = g := congrArg Prod.snd heq
    rw [h2]
    exact hinj (by rw [← h1, hH])
  · exact hinj (by rw [hk, hH])

/-! Claim C2. -/

/-- Claim C2 as stated is false on the code: an entry can carry inline
content (the empty string) whose hash differs from the declared hash and
still be classified Found from the batch, because `if (file.content)`
treats the empty inline string as absent.  At the explicit input below the
metadata declares source `a.sol` with inline content `""` and hash
`K:body`; the hash of `""` is `K:` which differs; yet the batch file
`f.sol` with content `body` makes the entry Found and nothing is marked
Invalid. -/
theorem C2_counterexample :
    (rearrangeSources exKeccak exOracle
       [("a.sol", ⟨some "", "K:body", none⟩)]
       [⟨some "f.sol", "body"⟩]).found =
      [("a.sol", ⟨some "f.sol", "body"⟩)] ∧
    (rearrangeSources exKeccak exOracle
       [("a.sol", ⟨some "", "K:body", none⟩)]
       [⟨some "f.sol", "body"⟩]).invalid = [] ∧
    exKeccak "" ≠ "K:body" := by
  refine ⟨rfl, rfl, by decide⟩

/-- Claim C2 (amended: the entry must carry NON-EMPTY inline content, the
code treating an empty inline string as absent): for every declared source
entry with non-empty inline content whose keccak256 hash differs from the
declared hash, the entry is classified Invalid and never Found, and
neither the content-hash index nor the remote fetcher is consulted for it
— the batch `files` is universally quantified, so the outcome is the same
even when content matching the declared hash exists elsewhere in the
batch, and the fetch trace of the entry is empty. -/
theorem C2_inline_mismatch_invalid
    (keccak : String → String) (oracle : String → FetchResponse)
    (entries : List (String × SourceInfo)) (files : List PathContent)
    (n : String) (i : SourceInfo) (c : String)
    (hnd : (entries.map Prod.fst).Nodup)
    (hmem : (n, i) ∈ entries)
    (hc : i.content = some c) (hce : c ≠ "")
    (hm : keccak c ≠ i.keccak256) :
    lookupRes (rearrangeSources keccak oracle entries files).invalid n =
      some (n, hashMismatchMsg) ∧
    lookupRes (rearrangeSources keccak oracle entries files).found n = none ∧
    lookupRes (rearrangeSources keccak oracle entries files).missing n = none ∧
    lookupRes (rearrangeSources keccak oracle entries files).trace n = some (n, []) := by
  obtain ⟨pre, post, rfl, hpre, hpost⟩ := nodup_split_of_mem hmem hnd
  have hstep := @processEntry_inline_invalid keccak oracle
    (indexAfter keccak oracle (storeByHash keccak files) pre) n i c hc hce hm
  have hsp := @rearrangeGo_split keccak oracle (storeByHash keccak files) pre post n i
    hpre hpost
  rw [hstep] at hsp
  simp only [rearrangeSources]
  exact ⟨hsp.2.2.1, hsp.1, hsp.2.1, hsp.2.2.2⟩

/-- Witness for `C2_inline_mismatch_invalid` at a concrete input. -/
theorem C2_witness :
    lookupRes (rearrangeSources exKeccak exOracle
      [("a.sol", ⟨some "pragma", "K:other", none⟩)]
      [⟨some "f.sol", "other"⟩]).invalid "a.sol" = some ("a.sol", hashMismatchMsg) ∧
    lookupRes (rearrangeSources exKeccak exOracle
      [("a.sol", ⟨some "pragma", "K:other", none⟩)]
      [⟨some "f.sol", "other"⟩]).found "a.sol" = none ∧
    lookupRes (rearrangeSources exKeccak exOracle
      [("a.sol", ⟨some "pragma", "K:other", none⟩)]
      [⟨some "f.sol", "other"⟩]).missing "a.sol" = none ∧
    lookupRes (rearrangeSources exKeccak exOracle
      [("a.sol", ⟨some "pragma", "K:other", none⟩)]
      [⟨some "f.sol", "other"⟩]).trace "a.sol" = some ("a.sol", []) :=
  C2_inline_mismatch_invalid exKeccak exOracle
    [("a.sol", ⟨some "pragma", "K:other", none⟩)]
    [⟨some "f.sol", "other"⟩] "a.sol" ⟨some "pragma", "K:other", none⟩ "pragma"
    (by decide) (by decide) rfl (by decide) (by decide)

/-! Claim C3. -/

/-- Claim C3 as stated is false on the code: fetching is keyed on the
TRIMMED declared path, so a path that does not literally match the GitHub
pattern and does not literally start with `@openzeppelin` can still be
dereferenced.  At the explicit input below the declared path carries a
leading space, yet `processFetching` dereferences the gateway URL built
from the declared `dweb:/ipfs/` URL. -/
theorem C3_counterexample :
    githubRegexTest " @openzeppelin/contracts/A.sol" = false ∧
    jsStartsWith " @openzeppelin/contracts/A.sol" "@openzeppelin" = false ∧
    (processFetching exKeccak exOracle " @openzeppelin/contracts/A.sol"
       ["dweb:/ipfs/QmX"] "0xh").2 =
      ["https://ipfs.infura.io:5001/api/v0/cat?arg=QmX"] := by
  refine ⟨by decide, by decide, by decide⟩

/-- Claim C3 (amended: the path is trimmed first): for every declared
source path whose TRIMMED form neither matches the GitHub URL pattern nor
starts with `@openzeppelin`, fetch resolution returns absent without
dereferencing any of the declared URLs. -/
theorem C3_no_fetch_for_other_paths
    (keccak : String → String) (oracle : String → FetchResponse)
    (n : String) (urls : List String) (hsh : String)
    (hg : githubRegexTest (jsTrim n) = false)
    (ho : jsStartsWith (jsTrim n) "@openzeppelin" = false) :
    processFetching keccak oracle n urls hsh = (none, []) := by
  simp [processFetching, hg, ho]

/-- Witness for `C3_no_fetch_for_other_paths` at a concrete input. -/
theorem C3_witness :
    processFetching exKeccak exOracle "contracts/Token.sol"
      ["dweb:/ipfs/QmY", "bzz-raw://abc"] "0xh" = (none, []) :=
  C3_no_fetch_for_other_paths exKeccak exOracle "contracts/Token.sol"
    ["dweb:/ipfs/QmY", "bzz-raw://abc"] "0xh" (by decide) (by decide)

/-! Claim C1. -/

/-- Claim C1 as stated is false on the code: a candidate whose content is
the EMPTY string is stored in the index but `if (file.content)` treats the
hit as absent, so the entry is classified Missing although a batch file
hashes to the declared hash.  At the explicit input below the batch holds
an empty file, `exKeccak ""` equals the declared hash `K:`, yet the source
is Missing and nothing is Found. -/
theorem C1_counterexample :
    exKeccak "" = "K:" ∧
    (rearrangeSources exKeccak exOracle
       [("a.sol", ⟨none, "K:", none⟩)]
       [⟨some "empty.sol", ""⟩]).missing =
      [("a.sol", ⟨"K:", none⟩)] ∧
    (rearrangeSources exKeccak exOracle
       [("a.sol", ⟨none, "K:", none⟩)]
       [⟨some "empty.sol", ""⟩]).found = [] := by
  refine ⟨rfl, rfl, rfl⟩

/-- Claim C1 (amended: the matching candidate content must be non-empty —
the code drops an empty hit — and the digest is assumed collision-free,
the assumption the metadata format itself relies on): for every declared
source entry without inline content, if some candidate file in the batch
has non-empty content whose keccak256 hash equals the entry's declared
hash, the entry is classified Found with byte-identical content.  The
candidates' origin paths are universally quantified and unconstrained, so
the classification is independent of origin path and filename. -/
theorem C1_found_of_matching_candidate
    (keccak : String → String) (oracle : String → FetchResponse)
    (entries : List (String × SourceInfo)) (files : List PathContent)
    (n : String) (i : SourceInfo) (f : PathContent)
    (hinj : Function.Injective keccak)
    (hnd : (entries.map Prod.fst).Nodup)
    (hmem : (n, i) ∈ entries)
    (hinline : i.content = none)
    (hf : f ∈ files)
    (hhash : keccak f.content = i.keccak256)
    (hne : f.content ≠ "") :
    ∃ pc : PathContent,
      lookupRes (rearrangeSources keccak oracle entries files).found n = some (n, pc) ∧
      pc.content = f.content ∧
      lookupRes (rearrangeSources keccak oracle entries files).missing n = none ∧
      lookupRes (rearrangeSources keccak oracle entries files).invalid n = none := by
  obtain ⟨pre, post, rfl, hpre, hpost⟩ := nodup_split_of_mem hmem hnd
  obtain ⟨pc, hget, hpc⟩ :=
    @indexGet_after_inj keccak oracle files pre f i.keccak256 hinj hf hhash
  have hpcne : pc.content ≠ "" := by rw [hpc]; exact hne
  have hstep : processEntry keccak oracle
      (indexAfter keccak oracle (storeByHash keccak files) pre) n i =
      ⟨.found pc, [], indexAfter keccak oracle (storeByHash keccak files) pre⟩ := by
    rw [processEntry_no_inline hinline]
    exact lookupPhase_hit hget hpcne
  have hsp := @rearrangeGo_split keccak oracle (storeByHash keccak files) pre post n i
    hpre hpost
  rw [hstep] at hsp
  simp only [rearrangeSources]
  exact ⟨pc, hsp.1, hpc, hsp.2.1, hsp.2.2.1⟩

/-- Witness for `C1_found_of_matching_candidate` at a concrete input. -/
theorem C1_witness :
    ∃ pc : PathContent,
      lookupRes (rearrangeSources exKeccak exOracle
        [("a.sol", ⟨none, "K:srcbody", none⟩)]
        [⟨some "weird-name.txt", "srcbody"⟩]).found "a.sol" = some ("a.sol", pc) ∧
      pc.content = "srcbody" ∧
      lookupRes (rearrangeSources exKeccak exOracle
        [("a.sol", ⟨none, "K:srcbody", none⟩)]
        [⟨some "weird-name.txt", "srcbody"⟩]).missing "a.sol" = none ∧
      lookupRes (rearrangeSources exKeccak exOracle
        [("a.sol", ⟨none, "K:srcbody", none⟩)]
        [⟨some "weird-name.txt", "srcbody"⟩]).invalid "a.sol" = none :=
  C1_found_of_matching_candidate exKeccak exOracle
    [("a.sol", ⟨none, "K:srcbody", none⟩)]
    [⟨some "weird-name.txt", "srcbody"⟩] "a.sol" ⟨none, "K:srcbody", none⟩
    ⟨some "weird-name.txt", "srcbody"⟩
    (fun a b hab => by
      have : ("K:" ++ a).data = ("K:" ++ b).data := congrArg String.data hab
      rw [String.data_append, String.data_append] at this
      exact String.ext (List.append_cancel_left this))
    (by decide) (by decide) rfl (by decide) rfl (by decide)

/-! Claim C4. -/

/-- Shared argument for the fetch-failure claims: with no inline content,
no hash match anywhere, URLs declared and a fetch URL selected, a failing
fetch dereferences exactly that one URL and the source ends up Missing,
with the batch processed to completion. -/
theorem fetchFail_missing_aux
    (keccak : String → String) (oracle : String → FetchResponse)
    (entries : List (String × SourceInfo)) (files : List PathContent)
    (n : String) (i : SourceInfo) (us : List String) (u : String)
    (hnd : (entries.map Prod.fst).Nodup)
    (hmem : (n, i) ∈ entries)
    (hinline : i.content = none)
    (hnofile : ∀ f ∈ files, keccak f.content ≠ i.keccak256)
    (hnoother : ∀ e ∈ entries, e.1 ≠ n → e.2.keccak256 ≠ i.keccak256)
    (hurls : i.urls = some us)
    (hu : fetchUrlOf n us = some u)
    (hfail : (oracle u).status ≠ 200 ∨ keccak (oracle u).text ≠ i.keccak256) :
    processFetching keccak oracle n us i.keccak256 = (none, [u]) ∧
    lookupRes (rearrangeSources keccak oracle entries files).missing n =
      some (n, ⟨i.keccak256, some us⟩) ∧
    lookupRes (rearrangeSources keccak oracle entries files).invalid n = none ∧
    lookupRes (rearrangeSources keccak oracle entries files).found n = none ∧
    lookupRes (rearrangeSources keccak oracle entries files).trace n = some (n, [u]) ∧
    (rearrangeSources keccak oracle entries files).trace.map Prod.fst =
      entries.map Prod.fst := by
  have hpf : performFetch keccak oracle u i.keccak256 = (none, [u]) := by
    rcases hfail with h | h
    · simp [performFetch, h]
    · by_cases h2 : (oracle u).status = 200
      · simp [performFetch, h2, h]
      · simp [performFetch, h2]
  have hproc : processFetching keccak oracle n us i.keccak256 = (none, [u]) := by
    rw [processFetching_of_url i.keccak256 hu, hpf]
  obtain ⟨pre, post, rfl, hpre, hpost⟩ := nodup_split_of_mem hmem hnd
  have hpreH : ∀ e ∈ pre, e.2.keccak256 ≠ i.keccak256 := by
    intro e he
    refine hnoother e (List.mem_append_left _ he) ?_
    intro hc
    exact hpre (hc ▸ List.mem_map_of_mem Prod.fst he)
  have hmiss := @indexGet_after_none keccak oracle files pre i.keccak256 hnofile hpreH
  have hstep : processEntry keccak oracle
      (indexAfter keccak oracle (storeByHash keccak files) pre) n i =
      ⟨.missing ⟨i.keccak256, some us⟩, [u],
       indexAfter keccak oracle (storeByHash keccak files) pre⟩ := by
    rw [processEntry_no_inline hinline, lookupPhase_miss hmiss,
        fetchPhase_fail hurls (by rw [hproc]), hproc]
  have hsp := @rearrangeGo_split keccak oracle (storeByHash keccak files) pre post n i
    hpre hpost
  rw [hstep] at hsp
  simp only [rearrangeSources]
  exact ⟨hproc, hsp.2.1, hsp.2.2.1, hsp.1, hsp.2.2.2,
    rearrangeGo_trace_fst keccak oracle _ _⟩

/-- Claim C4 (confirmed): for a declared source resolved by remote fetch
(no inline content, no hash match in the batch or among the other declared
hashes, URLs declared, and a fetch URL selected), a non-success transport
response or a fetched content hashing differently from the declared hash
makes the fetch a failure: exactly one URL is dereferenced (no retry), the
model returns instead of raising, the source is classified Missing — never
Invalid — and the batch is not aborted: the trace still lists every
declared source of the metadata document. -/
theorem C4_fetch_failure_missing
    (keccak : String → String) (oracle : String → FetchResponse)
    (entries : List (String × SourceInfo)) (files : List PathContent)
    (n : String) (i : SourceInfo) (us : List String) (u : String)
    (hnd : (entries.map Prod.fst).Nodup)
    (hmem : (n, i) ∈ entries)
    (hinline : i.content = none)
    (hnofile : ∀ f ∈ files, keccak f.content ≠ i.keccak256)
    (hnoother : ∀ e ∈ entries, e.1 ≠ n → e.2.keccak256 ≠ i.keccak256)
    (hurls : i.urls = some us)
    (hu : fetchUrlOf n us = some u)
    (hfail : (oracle u).status ≠ 200 ∨ keccak (oracle u).text ≠ i.keccak256) :
    processFetching keccak oracle n us i.keccak256 = (none, [u]) ∧
    lookupRes (rearrangeSources keccak oracle entries files).missing n =
      some (n, ⟨i.keccak256, some us⟩) ∧
    lookupRes (rearrangeSources keccak oracle entries files).invalid n = none ∧
    lookupRes (rearrangeSources keccak oracle entries files).found n = none ∧
    lookupRes (rearrangeSources keccak oracle entries files).trace n = some (n, [u]) ∧
    (rearrangeSources keccak oracle entries files).trace.map Prod.fst =
      entries.map Prod.fst :=
  fetchFail_missing_aux keccak oracle entries files n i us u
    hnd hmem hinline hnofile hnoother hurls hu hfail

/-- Witness for `C4_fetch_failure_missing` at a concrete input: a GitHub
path whose raw-content rewrite answers 404. -/
theorem C4_witness :
    processFetching exKeccak exOracle "https://github.com/x/y.sol" [] "K:zzz" =
      (none, ["https://raw.githubusercontent.com/x/y.sol"]) ∧
    lookupRes (rearrangeSources exKeccak exOracle
      [("https://github.com/x/y.sol", ⟨none, "K:zzz", some []⟩)] []).missing
      "https://github.com/x/y.sol" =
      some ("https://github.com/x/y.sol", ⟨"K:zzz", some []⟩) ∧
    lookupRes (rearrangeSources exKeccak exOracle
      [("https://github.com/x/y.sol", ⟨none, "K:zzz", some []⟩)] []).invalid
      "https://github.com/x/y.sol" = none ∧
    lookupRes (rearrangeSources exKeccak exOracle
      [("https://github.com/x/y.sol", ⟨none, "K:zzz", some []⟩)] []).found
      "https://github.com/x/y.sol" = none ∧
    lookupRes (rearrangeSources exKeccak exOracle
      [("https://github.com/x/y.sol", ⟨none, "K:zzz", some []⟩)] []).trace
      "https://github.com/x/y.sol" =
      some ("https://github.com/x/y.sol", ["https://raw.githubusercontent.com/x/y.sol"]) ∧
    (rearrangeSources exKeccak exOracle
      [("https://github.com/x/y.sol", ⟨none, "K:zzz", some []⟩)] []).trace.map Prod.fst =
      [("https://github.com/x/y.sol", (⟨none, "K:zzz", some []⟩ : SourceInfo))].map Prod.fst :=
  C4_fetch_failure_missing exKeccak exOracle
    [("https://github.com/x/y.sol", ⟨none, "K:zzz", some []⟩)] []
    "https://github.com/x/y.sol" ⟨none, "K:zzz", some []⟩ []
    "https://raw.githubusercontent.com/x/y.sol"
    (by decide) (by decide) rfl (by simp) (by decide) rfl (by decide)
    (Or.inl (by decide))

/-! Claim C10. -/

/-- Claim C10 (confirmed): for a declared source path starting with
`@openzeppelin` that reaches the fetcher (no inline content, no hash match
in the batch or among the other declared hashes, URLs declared), only the
FIRST declared URL carrying the `dweb:/ipfs/` prefix is dereferenced,
rewritten to the fixed gateway endpoint; when that single attempt fails
the trace shows no other URL was tried and the source is classified
Missing. -/
theorem C10_openzeppelin_single_fetch
    (keccak : String → String) (oracle : String → FetchResponse)
    (entries : List (String × SourceInfo)) (files : List PathContent)
    (n : String) (i : SourceInfo) (us : List String) (u : String)
    (hnd : (entries.map Prod.fst).Nodup)
    (hmem : (n, i) ∈ entries)
    (hoz : jsStartsWith n "@openzeppelin" = true)
    (hinline : i.content = none)
    (hnofile : ∀ f ∈ files, keccak f.content ≠ i.keccak256)
    (hnoother : ∀ e ∈ entries, e.1 ≠ n → e.2.keccak256 ≠ i.keccak256)
    (hurls : i.urls = some us)
    (hfirst : us.find? (fun v => jsStartsWith v ipfsPrefix) = some u)
    (hfail : (oracle (ipfsGateway ++ strDrop u ipfsPrefix.length)).status ≠ 200 ∨
             keccak (oracle (ipfsGateway ++ strDrop u ipfsPrefix.length)).text ≠ i.keccak256) :
    processFetching keccak oracle n us i.keccak256 =
      (none, [ipfsGateway ++ strDrop u ipfsPrefix.length]) ∧
    lookupRes (rearrangeSources keccak oracle entries files).missing n =
      some (n, ⟨i.keccak256, some us⟩) ∧
    lookupRes (rearrangeSources keccak oracle entries files).invalid n = none ∧
    lookupRes (rearrangeSources keccak oracle entries files).found n = none ∧
    lookupRes (rearrangeSources keccak oracle entries files).trace n =
      some (n, [ipfsGateway ++ strDrop u ipfsPrefix.length]) := by
  have htrim := jsTrim_keeps_oz hoz
  have hgh := githubRegexTest_false_of_oz htrim
  have hu : fetchUrlOf n us = some (ipfsGateway ++ strDrop u ipfsPrefix.length) := by
    simp [fetchUrlOf, hgh, htrim, hfirst]
  have hmain := fetchFail_missing_aux keccak oracle entries files n i us
    (ipfsGateway ++ strDrop u ipfsPrefix.length)
    hnd hmem hinline hnofile hnoother hurls hu hfail
  exact ⟨hmain.1, hmain.2.1, hmain.2.2.1, hmain.2.2.2.1, hmain.2.2.2.2.1⟩

/-- Witness for `C10_openzeppelin_single_fetch` at a concrete input: an
`@openzeppelin` path with two `dweb:/ipfs/` URLs (and one non-IPFS URL);
only the first IPFS URL, rewritten to the gateway, is dereferenced, it
fails (404) and the source is Missing. -/
theorem C10_witness :
    processFetching exKeccak exOracle "@openzeppelin/contracts/Ownable.sol"
      ["bzz-raw://aa", "dweb:/ipfs/QmAbc", "dweb:/ipfs/QmDef"] "K:zzz" =
      (none, [ipfsGateway ++ strDrop "dweb:/ipfs/QmAbc" ipfsPrefix.length]) ∧
    lookupRes (rearrangeSources exKeccak exOracle
      [("@openzeppelin/contracts/Ownable.sol",
        ⟨none, "K:zzz", some ["bzz-raw://aa", "dweb:/ipfs/QmAbc", "dweb:/ipfs/QmDef"]⟩)]
      []).missing "@openzeppelin/contracts/Ownable.sol" =
      some ("@openzeppelin/contracts/Ownable.sol",
        ⟨"K:zzz", some ["bzz-raw://aa", "dweb:/ipfs/QmAbc", "dweb:/ipfs/QmDef"]⟩) ∧
    lookupRes (rearrangeSources exKeccak exOracle
      [("@openzeppelin/contracts/Ownable.sol",
        ⟨none, "K:zzz", some ["bzz-raw://aa", "dweb:/ipfs/QmAbc", "dweb:/ipfs/QmDef"]⟩)]
      []).invalid "@openzeppelin/contracts/Ownable.sol" = none ∧
    lookupRes (rearrangeSources exKeccak exOracle
      [("@openzeppelin/contracts/Ownable.sol",
        ⟨none, "K:zzz", some ["bzz-raw://aa", "dweb:/ipfs/QmAbc", "dweb:/ipfs/QmDef"]⟩)]
      []).found "@openzeppelin/contracts/Ownable.sol" = none ∧
    lookupRes (rearrangeSources exKeccak exOracle
      [("@openzeppelin/contracts/Ownable.sol",
        ⟨none, "K:zzz", some ["bzz-raw://aa", "dweb:/ipfs/QmAbc", "dweb:/ipfs/QmDef"]⟩)]
      []).trace "@openzeppelin/contracts/Ownable.sol" =
      some ("@openzeppelin/contracts/Ownable.sol",
        [ipfsGateway ++ strDrop "dweb:/ipfs/QmAbc" ipfsPrefix.length]) :=
  C10_openzeppelin_single_fetch exKeccak exOracle
    [("@openzeppelin/contracts/Ownable.sol",
      ⟨none, "K:zzz", some ["bzz-raw://aa", "dweb:/ipfs/QmAbc", "dweb:/ipfs/QmDef"]⟩)]
    [] "@openzeppelin/contracts/Ownable.sol"
    ⟨none, "K:zzz", some ["bzz-raw://aa", "dweb:/ipfs/QmAbc", "dweb:/ipfs/QmDef"]⟩
    ["bzz-raw://aa", "dweb:/ipfs/QmAbc", "dweb:/ipfs/QmDef"] "dweb:/ipfs/QmAbc"
    (by decide) (by decide) (by decide) rfl (by simp) (by decide) rfl (by decide)
    (Or.inl (by decide))

/-! Claim C9. -/

/-- Claim C9 as stated is false on the code: a SUBSEQUENT declared source
with the same declared hash is not always classified Found from the index,
because inline content takes precedence.  At the explicit input below the
first entry is resolved by a successful GitHub fetch of `srcbody` (hash
`K:srcbody`), which is inserted into the index; the second entry declares
the same hash `K:srcbody` but carries mismatching inline content
`tampered` — it is classified Invalid, not Found. -/
theorem C9_counterexample :
    (rearrangeSources exKeccak exOracle
       [("https://github.com/a/b/s.sol", ⟨none, "K:srcbody", some []⟩),
        ("lib.sol", ⟨some "tampered", "K:srcbody", none⟩)] []).found =
      [("https://github.com/a/b/s.sol", ⟨none, "srcbody"⟩)] ∧
    (rearrangeSources exKeccak exOracle
       [("https://github.com/a/b/s.sol", ⟨none, "K:srcbody", some []⟩),
        ("lib.sol", ⟨some "tampered", "K:srcbody", none⟩)] []).invalid =
      [("lib.sol", hashMismatchMsg)] := by
  refine ⟨rfl, rfl⟩

/-- Claim C9 (amended: the subsequent entry must itself carry no inline
content, since inline content takes precedence): when a declared source is
resolved by a successful remote fetch, the fetched content is inserted
into the content-hash index under the declared hash, so every subsequent
declared source without inline content whose declared hash equals it is
classified Found from the index — its content non-empty and hashing to the
declared hash — with no fetch attempted for it (its trace is empty). -/
theorem C9_fetch_insert_reuse
    (keccak : String → String) (oracle : String → FetchResponse)
    (p1 p2 p3 : List (String × SourceInfo)) (files : List PathContent)
    (n1 : String) (i1 : SourceInfo) (n2 : String) (i2 : SourceInfo)
    (us : List String) (u : String)
    (hnd : ((p1 ++ (n1, i1) :: p2 ++ (n2, i2) :: p3).map Prod.fst).Nodup)
    (hinline1 : i1.content = none)
    (hnofile : ∀ f ∈ files, keccak f.content ≠ i1.keccak256)
    (hnoprev : ∀ e ∈ p1, e.2.keccak256 ≠ i1.keccak256)
    (hurls : i1.urls = some us)
    (hu : fetchUrlOf n1 us = some u)
    (hok : (oracle u).status = 200)
    (hmatch : keccak (oracle u).text = i1.keccak256)
    (hnonempty : (oracle u).text ≠ "")
    (hinline2 : i2.content = none)
    (hsame : i2.keccak256 = i1.keccak256) :
    lookupRes (rearrangeSources keccak oracle
      (p1 ++ (n1, i1) :: p2 ++ (n2, i2) :: p3) files).found n1 =
      some (n1, ⟨none, (oracle u).text⟩) ∧
    lookupRes (rearrangeSources keccak oracle
      (p1 ++ (n1, i1) :: p2 ++ (n2, i2) :: p3) files).trace n1 = some (n1, [u]) ∧
    (∃ pc : PathContent,
      lookupRes (rearrangeSources keccak oracle
        (p1 ++ (n1, i1) :: p2 ++ (n2, i2) :: p3) files).found n2 = some (n2, pc) ∧
      keccak pc.content = i1.keccak256 ∧ pc.content ≠ "") ∧
    lookupRes (rearrangeSources keccak oracle
      (p1 ++ (n1, i1) :: p2 ++ (n2, i2) :: p3) files).trace n2 = some (n2, []) := by
  have hassoc : (p1 ++ (n1, i1) :: p2) ++ (n2, i2) :: p3 =
      p1 ++ (n1, i1) :: (p2 ++ (n2, i2) :: p3) := by simp
  have hnd0 := hnd
  rw [hassoc, List.map_append, List.map_cons, List.map_append, List.map_cons,
      List.nodup_append] at hnd0
  obtain ⟨hnp1, hrest, hdisj⟩ := hnd0
  rw [List.nodup_cons] at hrest
  obtain ⟨hn1notin, hrest2⟩ := hrest
  rw [List.nodup_append] at hrest2
  obtain ⟨hnp2, hrest3, hdisj2⟩ := hrest2
  rw [List.nodup_cons] at hrest3
  obtain ⟨hn2notp3, _⟩ := hrest3
  have hpre1 : n1 ∉ p1.map Prod.fst := fun hc => hdisj hc (List.mem_cons_self _ _)
  have hpost1 : n1 ∉ (p2 ++ (n2, i2) :: p3).map Prod.fst := by
    rw [List.map_append, List.map_cons]
    exact hn1notin
  have hpre2 : n2 ∉ (p1 ++ (n1, i1) :: p2).map Prod.fst := by
    rw [List.map_append, List.map_cons]
    intro hc
    rcases List.mem_append.mp hc with hp1 | hcons
    · exact hdisj hp1
        (List.mem_cons_of_mem _ (List.mem_append_right _ (List.mem_cons_self _ _)))
    · rcases List.mem_cons.mp hcons with he | hp2
      · exact hn1notin (he ▸ List.mem_append_right _ (List.mem_cons_self _ _))
      · exact hdisj2 hp2 (List.mem_cons_self _ _)
  have hmiss1 := @indexGet_after_none keccak oracle files p1 i1.keccak256 hnofile hnoprev
  have hpf : performFetch keccak oracle u i1.keccak256 = (some (oracle u).text, [u]) := by
    simp [performFetch, hok, hmatch]
  have hproc : processFetching keccak oracle n1 us i1.keccak256 =
      (some (oracle u).text, [u]) := by
    rw [processFetching_of_url i1.keccak256 hu, hpf]
  have hstep1 : processEntry keccak oracle
      (indexAfter keccak oracle (storeByHash keccak files) p1) n1 i1 =
      ⟨.found ⟨none, (oracle u).text⟩, [u],
       (i1.keccak256, (⟨none, (oracle u).text⟩ : PathContent)) ::
         indexAfter keccak oracle (storeByHash keccak files) p1⟩ := by
    rw [processEntry_no_inline hinline1, lookupPhase_miss hmiss1,
        fetchPhase_success hurls (by rw [hproc]) hnonempty, hproc]
  have hsp1 := @rearrangeGo_split keccak oracle (storeByHash keccak files) p1
    (p2 ++ (n2, i2) :: p3) n1 i1 hpre1 hpost1
  rw [hstep1] at hsp1
  have hidx2 : indexAfter keccak oracle (storeByHash keccak files)
      (p1 ++ (n1, i1) :: p2) =
      indexAfter keccak oracle
        ((i1.keccak256, (⟨none, (oracle u).text⟩ : PathContent)) ::
          indexAfter keccak oracle (storeByHash keccak files) p1) p2 := by
    rw [indexAfter_append]
    show indexAfter keccak oracle
      (processEntry keccak oracle
        (indexAfter keccak oracle (storeByHash keccak files) p1) n1 i1).idx p2 = _
    rw [hstep1]
  have hmem2 : (i1.keccak256, (⟨none, (oracle u).text⟩ : PathContent)) ∈
      indexAfter keccak oracle (storeByHash keccak files) (p1 ++ (n1, i1) :: p2) := by
    rw [hidx2]
    exact indexAfter_mem (List.mem_cons_self _ _)
  obtain ⟨pc, hget2⟩ := indexGet_isSome_of_mem hmem2
  have hpcprops : pc.content ≠ "" ∧ keccak pc.content = i1.keccak256 := by
    have hm := indexGet_mem hget2
    rcases indexAfter_elim hm with hb | ⟨hne, hk, _, _, _⟩
    · obtain ⟨g, hg, heq⟩ := storeByHash_mem_elim hb
      exact absurd (congrArg Prod.fst heq).symm (hnofile g hg)
    · exact ⟨hne, hk⟩
  have hstep2 : processEntry keccak oracle
      (indexAfter keccak oracle (storeByHash keccak files) (p1 ++ (n1, i1) :: p2)) n2 i2 =
      ⟨.found pc, [],
       indexAfter keccak oracle (storeByHash keccak files) (p1 ++ (n1, i1) :: p2)⟩ := by
    rw [processEntry_no_inline hinline2]
    exact lookupPhase_hit (by rw [hsame]; exact hget2) hpcprops.1
  have hsp2 := @rearrangeGo_split keccak oracle (storeByHash keccak files)
    (p1 ++ (n1, i1) :: p2) p3 n2 i2 hpre2 hn2notp3
  rw [hstep2] at hsp2
  rw [hassoc] at hsp2
  simp only [rearrangeSources]
  rw [hassoc]
  exact ⟨hsp1.1, hsp1.2.2.2, ⟨pc, hsp2.1, hpcprops.2, hpcprops.1⟩, hsp2.2.2.2⟩

/-- Witness for `C9_fetch_insert_reuse` at a concrete input: a GitHub
fetch resolves the first source, and a second source declaring the same
hash is served from the index with an empty fetch trace. -/
theorem C9_witness :
    lookupRes (rearrangeSources exKeccak exOracle
      ([] ++ ("https://github.com/a/b/s.sol",
          (⟨none, "K:srcbody", some []⟩ : SourceInfo)) ::
        [] ++ ("lib.sol", (⟨none, "K:srcbody", none⟩ : SourceInfo)) :: []) []).found
      "https://github.com/a/b/s.sol" =
      some ("https://github.com/a/b/s.sol",
        ⟨none, (exOracle "https://raw.githubusercontent.com/a/b/s.sol").text⟩) ∧
    lookupRes (rearrangeSources exKeccak exOracle
      ([] ++ ("https://github.com/a/b/s.sol",
          (⟨none, "K:srcbody", some []⟩ : SourceInfo)) ::
        [] ++ ("lib.sol", (⟨none, "K:srcbody", none⟩ : SourceInfo)) :: []) []).trace
      "https://github.com/a/b/s.sol" =
      some ("https://github.com/a/b/s.sol",
        ["https://raw.githubusercontent.com/a/b/s.sol"]) ∧
    (∃ pc : PathContent,
      lookupRes (rearrangeSources exKeccak exOracle
        ([] ++ ("https://github.com/a/b/s.sol",
            (⟨none, "K:srcbody", some []⟩ : SourceInfo)) ::
          [] ++ ("lib.sol", (⟨none, "K:srcbody", none⟩ : SourceInfo)) :: []) []).found
        "lib.sol" = some ("lib.sol", pc) ∧
      exKeccak pc.content = "K:srcbody" ∧ pc.content ≠ "") ∧
    lookupRes (rearrangeSources exKeccak exOracle
      ([] ++ ("https://github.com/a/b/s.sol",
          (⟨none, "K:srcbody", some []⟩ : SourceInfo)) ::
        [] ++ ("lib.sol", (⟨none, "K:srcbody", none⟩ : SourceInfo)) :: []) []).trace
      "lib.sol" = some ("lib.sol", []) :=
  C9_fetch_insert_reuse exKeccak exOracle [] [] [] []
    "https://github.com/a/b/s.sol" ⟨none, "K:srcbody", some []⟩
    "lib.sol" ⟨none, "K:srcbody", none⟩ []
    "https://raw.githubusercontent.com/a/b/s.sol"
    (by decide) rfl (by simp) (by simp) rfl (by decide) (by decide) (by decide)
    (by decide) rfl rfl

/-! Claim C8. -/

/-- Claim C8 as stated is false on the code: archive expansion is NOT
single-level.  `unzip` pushes expanded entries onto the very array the
`for...of` loop of `findInputFiles` is iterating, so a nested archive is
visited and expanded in turn.  At the explicit input below the archive
`ZIPA` (logical path `a.zip`) contains the nested archive `ZIPB` and a
plain file; the output contains the nested archive's inner file — not the
nested archive as an opaque entry — and every expanded entry carries the
outer archive's path. -/
theorem C8_counterexample :
    findInputFiles exZip 5 [⟨some "a.zip", "ZIPA"⟩] =
      [⟨some "a.zip", "plain one"⟩, ⟨some "a.zip", "inner source"⟩] := by
  rfl

/-- Claim C8 (amended: expansion is recursive, not single-level): for every
archive containing a nested archive, the nested archive is itself expanded,
and every expanded entry inherits the logical path of the archive chain's
outermost member (each entry gets the path of the archive that directly
contained it, which for nested entries is already the inherited outer
path). -/
theorem C8_recursive_expansion
    (zipQ : String → Option (List String)) (fuel : Nat)
    (pA : Option String) (zA zB b1 b2 : String)
    (hA : zipQ zA = some [zB, b1])
    (hB : zipQ zB = some [b2])
    (h1 : zipQ b1 = none)
    (h2 : zipQ b2 = none) :
    findInputFiles zipQ (fuel + 4) [⟨pA, zA⟩] = [⟨pA, b1⟩, ⟨pA, b2⟩] := by
  simp [findInputFiles, hA, hB, h1, h2]

/-- Witness for `C8_recursive_expansion` at a concrete input. -/
theorem C8_witness :
    findInputFiles exZip (1 + 4) [⟨some "a.zip", "ZIPA"⟩] =
      [⟨some "a.zip", "plain one"⟩, ⟨some "a.zip", "inner source"⟩] :=
  C8_recursive_expansion exZip 1 (some "a.zip") "ZIPA" "ZIPB" "plain one"
    "inner source" (by decide) (by decide) (by decide) (by decide)

/-! Claim C7. -/

/-- Claim C7 is refuted by the code (the claim captures the documented
intent — `checkFiles` documents `@throws Error if no metadata files are
found` and malformed inputs are meant to be silently skipped — but the
code throws elsewhere): a blob recognized as metadata by the
language-and-compiler predicate but lacking a `settings` key makes
`findMetadataFiles` evaluate `metadata.settings.compilationTarget`, which
throws a TypeError.  At the explicit input below the blob passes
`isMetadata`, yet scanning aborts with the TypeError rather than skipping
or collecting the blob. -/
theorem C7_scan_throws :
    isMetadata c7MetaJson = some true ∧
    extractMetadataFromString exParse c7Meta = some c7MetaJson ∧
    findMetadataFiles exParse nestedNone [⟨some "metadata.json", c7Meta⟩] =
      Except.error VError.typeError := by
  refine ⟨rfl, rfl, rfl⟩

/-! Claim C5. -/

/-- Claim C5 is refuted by the code (the claim matches the documented
contract — the only documented throw of `checkFiles` is the
"no metadata found" error — but the code has a second fatal condition): a
batch containing a well-formed source file AND a blob recognized as
metadata but lacking `settings` fails fatally with a TypeError even though
a metadata document was recognized, so zero-metadata is not the only fatal
condition of the in-memory pipeline. -/
theorem C5_fatal_beyond_no_metadata :
    isMetadata c5MetaJson = some true ∧
    checkFiles zipNone exParse nestedNone exKeccak oracleNone 9
      [⟨some "1_Storage.sol", c5Src⟩, ⟨some "metadata.json", c5Meta⟩] =
      Except.error VError.typeError ∧
    VError.typeError ≠ VError.noMetadata := by
  refine ⟨rfl, rfl, by decide⟩

/-! Claim C6. -/

/-- Claim C6 as stated is false on the code: `checkFiles` hands the FULL
parsed batch — metadata documents included — to `rearrangeSources`, whose
index `storeByHash(files)` therefore hashes metadata documents too.  At
the explicit input below the batch holds two metadata documents and no
other file; `m1Blob` declares its source `a.sol` with hash `0xhash2`,
which is the digest of the OTHER METADATA DOCUMENT `m2Blob`; were metadata
excluded from the index the source would be Missing, but the code
classifies it Found with the metadata document's text as content. -/
theorem C6_counterexample :
    keccakC6 m2Blob = "0xhash2" ∧
    isMetadata m2Json = some true ∧
    (match checkFiles zipNone exParse nestedNone keccakC6 oracleNone 9
        [⟨some "m1.json", m1Blob⟩, ⟨some "m2.json", m2Blob⟩] with
     | Except.ok cs => cs.map (fun c => c.foundSources.map (fun p => (p.1, p.2.content)))
     | Except.error _ => []) =
      [[("a.sol", m2Blob)], []] := by
  refine ⟨rfl, rfl, rfl⟩

/-- Claim C6 (amended: the index is built by hashing EVERY parsed input of
the batch exactly once, files recognized as metadata documents included —
each input contributes an entry under its content's hash): every batch
file's hash is bound in `storeByHash` to a content with the same hash, and
`rearrangeSources` consults exactly this index. -/
theorem C6_index_includes_all_inputs
    (keccak : String → String) (oracle : String → FetchResponse)
    (entries : List (String × SourceInfo)) (files : List PathContent)
    (f : PathContent) (hf : f ∈ files) :
    (∃ pc, indexGet (keccak f.content) (storeByHash keccak files) = some pc ∧
      keccak pc.content = keccak f.content) ∧
    rearrangeSources keccak oracle entries files =
      rearrangeGo keccak oracle (storeByHash keccak files) entries := by
  refine ⟨?_, rfl⟩
  obtain ⟨pc, hpc⟩ := indexGet_isSome_of_mem (@storeByHash_mem_of keccak files f hf)
  refine ⟨pc, hpc, ?_⟩
  obtain ⟨g, _, heq⟩ := storeByHash_mem_elim (indexGet_mem hpc)
  have h1 : keccak f.content = keccak g.content := congrArg Prod.fst heq
  have h2 : pc = g := congrArg Prod.snd heq
  rw [h2, ← h1]

/-- Witness for `C6_index_includes_all_inputs` at a concrete input: the
metadata document `m1Blob` itself contributes an index entry. -/
theorem C6_witness :
    (∃ pc, indexGet (keccakC6 m1Blob)
        (storeByHash keccakC6 [⟨some "m1.json", m1Blob⟩, ⟨some "m2.json", m2Blob⟩]) =
        some pc ∧
      keccakC6 pc.content = keccakC6 m1Blob) ∧
    rearrangeSources keccakC6 oracleNone (sourcesOf m1Json)
      [⟨some "m1.json", m1Blob⟩, ⟨some "m2.json", m2Blob⟩] =
      rearrangeGo keccakC6 oracleNone
        (storeByHash keccakC6 [⟨some "m1.json", m1Blob⟩, ⟨some "m2.json", m2Blob⟩])
        (sourcesOf m1Json) :=
  C6_index_includes_all_inputs keccakC6 oracleNone (sourcesOf m1Json)
    [⟨some "m1.json", m1Blob⟩, ⟨some "m2.json", m2Blob⟩]
    ⟨some "m1.json", m1Blob⟩ (by decide)

end SourcifyValidation
